import Mathlib

/-!
# Verification of the `LogMerge` round-robin log-merge scheduler

Shallow embedding of `src/log_merge.rs`.  A log source (a boxed futures-0.1
`Stream`) is modelled by the finite script of responses it gives to successive
polls: each poll consumes the head of the script; an exhausted script behaves
like a stream that is never ready again (`NotReady` forever).  The scheduler
state mirrors the Rust struct field by field, and `LogMerge.poll` mirrors
`Stream::poll for LogMerge` including the early `return Err(err)` inside the
polling pass and the `pop_front().unwrap()` in the release step (a `none`
buffer there is modelled by the `panicked` output).
-/

/-- Response of one call to `poll()` on an underlying source stream:
`readySome line` is `Ok(Ready(Some(line)))`, `readyNone` is `Ok(Ready(None))`,
`notReady` is `Ok(NotReady)` and `error` is `Err(_)`. -/
inductive PollResult where
  | readySome : String → PollResult
  | readyNone : PollResult
  | notReady : PollResult
  | error : PollResult
deriving DecidableEq

/-- `enum SourceState` of `log_merge.rs`. -/
inductive SourceState where
  | NeedsPoll : SourceState
  | Delivered : SourceState
  | Finished : SourceState
deriving DecidableEq

/-- `enum LogMergeError` of `log_merge.rs`. -/
inductive LogMergeError where
  | DefaultError : LogMergeError
deriving DecidableEq

/-- `struct LogLine` of `log_merge.rs`. -/
structure LogLine where
  source_idx : Nat
  line : String
deriving DecidableEq

/-- `struct LogMerge` of `log_merge.rs`.  Each source is its remaining
response script; `buffer` is the `VecDeque`, front at the head of the list. -/
structure LogMerge where
  sources : List (List PollResult)
  source_state : List SourceState
  finished : Nat
  buffer : List LogLine
deriving DecidableEq

/-- `LogMerge::new`: every source starts in `NeedsPoll`, the finished counter
at `0`, the buffer empty. -/
def LogMerge.new (sources : List (List PollResult)) : LogMerge :=
  { sources := sources
    source_state := List.replicate sources.length SourceState.NeedsPoll
    finished := 0
    buffer := [] }

/-- `LogMerge::state`: the derived round state (`unfinished = 0` ↦ `Finished`,
`unfinished = buffer.len()` ↦ `Delivered`, otherwise `NeedsPoll`). -/
def LogMerge.state (m : LogMerge) : SourceState :=
  let unfinished := m.sources.length - m.finished
  if unfinished = 0 then SourceState.Finished
  else if unfinished = m.buffer.length then SourceState.Delivered
  else SourceState.NeedsPoll

/-- `LogMerge::insert_into_buffer`: `push_back` on the `VecDeque`. -/
def LogMerge.insert_into_buffer (m : LogMerge) (l : LogLine) : LogMerge :=
  { m with buffer := m.buffer ++ [l] }

/-- `LogMerge::poll_source`: one poll of source `source_idx`, consuming the
head of its script.  Returns the updated scheduler plus `some err` in the
`Err(_)` case (where, as in the Rust code, no field other than the source
itself is touched). -/
def LogMerge.poll_source (m : LogMerge) (source_idx : Nat) :
    LogMerge × Option LogMergeError :=
  match (m.sources.getD source_idx []).headD PollResult.notReady with
  | PollResult.readySome line =>
      ({ { m with sources := m.sources.set source_idx (m.sources.getD source_idx []).tail
         }.insert_into_buffer { source_idx := source_idx, line := line } with
          source_state := m.source_state.set source_idx SourceState.Delivered },
        none)
  | PollResult.readyNone =>
      ({ m with
          sources := m.sources.set source_idx (m.sources.getD source_idx []).tail
          source_state := m.source_state.set source_idx SourceState.Finished
          finished := m.finished + 1 },
        none)
  | PollResult.notReady =>
      ({ m with
          sources := m.sources.set source_idx (m.sources.getD source_idx []).tail
          source_state := m.source_state.set source_idx SourceState.NeedsPoll },
        none)
  | PollResult.error =>
      ({ m with sources := m.sources.set source_idx (m.sources.getD source_idx []).tail },
        some LogMergeError.DefaultError)

/-- The `for s in 0..self.source_state.len()` loop of `Stream::poll`, over an
explicit list of indices: sources whose status is not `NeedsPoll` are skipped,
and an `Err` from `poll_source` aborts the loop at once (returning the
partially mutated scheduler, exactly like the Rust early `return`). -/
def LogMerge.poll_pass_from (m : LogMerge) : List Nat → LogMerge × Option LogMergeError
  | [] => (m, none)
  | s :: rest =>
    match m.source_state.getD s SourceState.Finished with
    | SourceState.NeedsPoll =>
      match m.poll_source s with
      | (m1, some e) => (m1, some e)
      | (m1, none) => m1.poll_pass_from rest
    | _ => m.poll_pass_from rest

/-- The complete polling pass of `Stream::poll`: indices `0, …, n-1` in
ascending order. -/
def LogMerge.poll_pass (m : LogMerge) : LogMerge × Option LogMergeError :=
  m.poll_pass_from (List.range m.source_state.length)

/-- Result of one call to `Stream::poll` on the merger, at the granularity of
the released `LogLine` (keeping the source index of the released line so that
ordering properties can be stated).  `panicked` models the
`pop_front().unwrap()` panic on an empty buffer. -/
inductive PollStep where
  | item : LogLine → PollStep
  | done : PollStep
  | notReady : PollStep
  | error : PollStep
  | panicked : PollStep
deriving DecidableEq

/-- `Stream::poll for LogMerge`: run the polling pass (propagating `Err`
immediately), then match on the derived state: `Delivered` releases the front
buffered line and flips its source back to `NeedsPoll`; `Finished` is
end-of-stream; `NeedsPoll` is `NotReady`. -/
def LogMerge.poll_step (m : LogMerge) : PollStep × LogMerge :=
  match m.poll_pass with
  | (m1, some _) => (PollStep.error, m1)
  | (m1, none) =>
    match m1.state with
    | SourceState.Delivered =>
      match m1.buffer with
      | [] => (PollStep.panicked, m1)
      | l :: rest =>
        (PollStep.item l,
          { m1 with
              buffer := rest
              source_state := m1.source_state.set l.source_idx SourceState.NeedsPoll })
    | SourceState.Finished => (PollStep.done, m1)
    | SourceState.NeedsPoll => (PollStep.notReady, m1)

/-- What the consumer of the `Stream` sees: `item s` is `Ok(Ready(Some(s)))`,
`done` is `Ok(Ready(None))`, `notReady` is `Ok(NotReady)`, `error` is
`Err(_)`. -/
inductive PollOutput where
  | item : String → PollOutput
  | done : PollOutput
  | notReady : PollOutput
  | error : PollOutput
  | panicked : PollOutput
deriving DecidableEq

/-- Erase the released line to the string actually returned by
`Ok(Ready(Some(log_line.line)))`. -/
def stepOutput : PollStep → PollOutput
  | PollStep.item l => PollOutput.item l.line
  | PollStep.done => PollOutput.done
  | PollStep.notReady => PollOutput.notReady
  | PollStep.error => PollOutput.error
  | PollStep.panicked => PollOutput.panicked

/-- One externally visible call to `Stream::poll` on the merger. -/
def LogMerge.poll (m : LogMerge) : PollOutput × LogMerge :=
  (stepOutput (m.poll_step).1, (m.poll_step).2)

/-- The scheduler state after `k` consecutive calls to `poll`. -/
def LogMerge.steps (m : LogMerge) : Nat → LogMerge
  | 0 => m
  | k + 1 => ((m.poll_step).2).steps k

/-- The outputs of `k` consecutive calls to `poll`. -/
def LogMerge.outputs (m : LogMerge) : Nat → List PollOutput
  | 0 => []
  | k + 1 => (m.poll).1 :: ((m.poll_step).2).outputs k

/-- The released lines (with source attribution) of `k` consecutive calls to
`poll`, in release order. -/
def LogMerge.trace (m : LogMerge) : Nat → List LogLine
  | 0 => []
  | k + 1 =>
    match m.poll_step with
    | (PollStep.item l, m1) => l :: m1.trace k
    | (PollStep.done, m1) => m1.trace k
    | (PollStep.notReady, m1) => m1.trace k
    | (PollStep.error, m1) => m1.trace k
    | (PollStep.panicked, m1) => m1.trace k

/-- A scheduler state reachable from some construction by repeated polling. -/
def Reachable (m : LogMerge) : Prop :=
  ∃ srcs k, (LogMerge.new srcs).steps k = m

/-- Number of entries of a status vector equal to `x`. -/
def countState (x : SourceState) : List SourceState → Nat
  | [] => 0
  | s :: rest => (if s = x then 1 else 0) + countState x rest

/-- The state invariant maintained by the scheduler: the status vector tracks
the sources; the finished counter counts `Finished` entries; the buffer holds
exactly one line per `Delivered` source, each buffered line's source being
`Delivered` and distinct sources owning distinct buffered lines. -/
def MergeInv (m : LogMerge) : Prop :=
  m.source_state.length = m.sources.length ∧
  m.finished = countState SourceState.Finished m.source_state ∧
  m.buffer.length = countState SourceState.Delivered m.source_state ∧
  (∀ l ∈ m.buffer, l.source_idx < m.source_state.length ∧
      m.source_state.getD l.source_idx SourceState.Finished = SourceState.Delivered) ∧
  (m.buffer.map LogLine.source_idx).Nodup

/-- A buffered line of source `j` sits in the buffer ahead of every buffered
line of source `i`: the separation invariant used for the fairness bound. -/
def SepInv (i j : Nat) (m : LogMerge) : Prop :=
  ∃ pre jl post, m.buffer = pre ++ jl :: post ∧ jl.source_idx = j ∧
    ∀ x ∈ pre, x.source_idx ≠ i

/-! ## List helper lemmas -/

theorem getD_set_self {α : Type} (l : List α) (i : Nat) (a d : α) (h : i < l.length) :
    (l.set i a).getD i d = a := by
  simp [List.getD_eq_getElem?_getD, List.getElem?_set_self, h]

theorem getD_set_ne {α : Type} (l : List α) (i j : Nat) (a d : α) (h : i ≠ j) :
    (l.set i a).getD j d = l.getD j d := by
  simp [List.getD_eq_getElem?_getD, List.getElem?_set_ne h]

theorem getD_eq_get {α : Type} (l : List α) (i : Nat) (d : α) (h : i < l.length) :
    l.getD i d = l.get ⟨i, h⟩ := by
  simp [List.getD_eq_getElem?_getD, List.getElem?_eq_getElem h]

theorem getD_mem {α : Type} (l : List α) (i : Nat) (d : α) (h : i < l.length) :
    l.getD i d ∈ l := by
  rw [getD_eq_get l i d h]
  exact l.get_mem i h

theorem lt_length_of_getD_ne_default {α : Type} {l : List α} {i : Nat} {d : α}
    (h : l.getD i d ≠ d) : i < l.length := by
  by_contra hge
  exact h (List.getD_eq_default l d (Nat.le_of_not_lt hge))

theorem countState_le_length (x : SourceState) (l : List SourceState) :
    countState x l ≤ l.length := by
  induction l with
  | nil => simp [countState]
  | cons a t ih =>
    simp only [countState, List.length_cons]
    split <;> omega

theorem countState_replicate (x y : SourceState) (n : Nat) :
    countState x (List.replicate n y) = if y = x then n else 0 := by
  induction n with
  | zero => simp [countState]
  | succ k ih =>
    simp only [List.replicate_succ, countState, ih]
    split <;> omega

theorem countState_set (l : List SourceState) (i : Nat) (h : i < l.length)
    (a x : SourceState) :
    countState x (l.set i a) + (if l.get ⟨i, h⟩ = x then 1 else 0) =
      countState x l + (if a = x then 1 else 0) := by
  induction l generalizing i with
  | nil => simp at h
  | cons b t ih =>
    cases i with
    | zero => simp [countState]; omega
    | succ n =>
      have hn : n < t.length := by simpa using h
      simp only [List.set_cons_succ, countState, List.get_cons_succ]
      have := ih n hn
      omega

theorem countState_partition (l : List SourceState) :
    countState SourceState.NeedsPoll l + countState SourceState.Delivered l +
      countState SourceState.Finished l = l.length := by
  induction l with
  | nil => simp [countState]
  | cons a t ih =>
    simp only [countState, List.length_cons]
    cases a <;> (simp; omega)

theorem all_eq_of_countState_eq_length {x : SourceState} {l : List SourceState}
    (h : countState x l = l.length) : ∀ s ∈ l, s = x := by
  induction l with
  | nil => simp
  | cons a t ih =>
    simp only [countState, List.length_cons] at h
    have hle := countState_le_length x t
    intro s hs
    rcases List.mem_cons.mp hs with rfl | hst
    · by_contra hne
      simp [hne] at h
      omega
    · have hteq : countState x t = t.length := by
        by_cases ha : a = x <;> simp [ha] at h <;> omega
      exact ih hteq s hst

theorem ne_of_countState_eq_zero {x : SourceState} {l : List SourceState}
    (h : countState x l = 0) : ∀ s ∈ l, s ≠ x := by
  induction l with
  | nil => simp
  | cons a t ih =>
    simp only [countState] at h
    intro s hs
    rcases List.mem_cons.mp hs with rfl | hst
    · intro hsx
      simp [hsx] at h
    · have : countState x t = 0 := by
        by_cases ha : a = x <;> simp [ha] at h <;> omega
      exact ih this s hst

theorem length_filter_range_getD (l : List SourceState) (x d : SourceState) :
    ((List.range l.length).filter (fun s => decide (l.getD s d = x))).length =
      countState x l := by
  induction l with
  | nil => simp [countState]
  | cons a t ih =>
    simp only [List.length_cons, List.range_succ_eq_map, List.filter_cons,
      List.filter_map, List.getD_cons_zero, countState]
    have hcomp :
        ((fun s => decide (List.getD (a :: t) s d = x)) ∘ Nat.succ) =
          fun s => decide (t.getD s d = x) := by
      funext s
      simp [Function.comp, List.getD_cons_succ]
    rw [hcomp]
    simp only [List.getD_eq_getElem?_getD] at ih
    by_cases hax : a = x
    · simp [hax]
      omega
    · simp [hax]
      omega

/-! ## Structural lemmas about `poll_source` -/

theorem poll_source_state_length (m : LogMerge) (s : Nat) :
    ((m.poll_source s).1).source_state.length = m.source_state.length := by
  simp only [LogMerge.poll_source]
  split <;> simp [LogMerge.insert_into_buffer]

theorem poll_source_sources_length (m : LogMerge) (s : Nat) :
    ((m.poll_source s).1).sources.length = m.sources.length := by
  simp only [LogMerge.poll_source]
  split <;> simp [LogMerge.insert_into_buffer]

theorem poll_source_state_ne (m : LogMerge) (s i : Nat) (d : SourceState) (h : s ≠ i) :
    ((m.poll_source s).1).source_state.getD i d = m.source_state.getD i d := by
  simp only [LogMerge.poll_source]
  split <;> simp [LogMerge.insert_into_buffer, List.getElem?_set_ne h]

theorem poll_source_sources_ne (m : LogMerge) (s i : Nat) (h : s ≠ i) :
    ((m.poll_source s).1).sources.getD i [] = m.sources.getD i [] := by
  simp only [LogMerge.poll_source]
  split <;> simp [LogMerge.insert_into_buffer, List.getElem?_set_ne h]

theorem poll_source_buffer (m : LogMerge) (s : Nat) :
    ((m.poll_source s).1).buffer = m.buffer ∨
      ∃ line, ((m.poll_source s).1).buffer =
        m.buffer ++ [{ source_idx := s, line := line }] := by
  simp only [LogMerge.poll_source]
  split
  · case _ line heq =>
    exact Or.inr ⟨line, by simp [LogMerge.insert_into_buffer]⟩
  · exact Or.inl rfl
  · exact Or.inl rfl
  · exact Or.inl rfl

theorem poll_source_finished_le (m : LogMerge) (s : Nat) :
    m.finished ≤ ((m.poll_source s).1).finished := by
  simp only [LogMerge.poll_source]
  split <;> simp [LogMerge.insert_into_buffer]

/-! ## Structural lemmas about the polling pass -/

theorem poll_pass_from_state_length (idxs : List Nat) (m : LogMerge) :
    ((m.poll_pass_from idxs).1).source_state.length = m.source_state.length := by
  induction idxs generalizing m with
  | nil => rfl
  | cons s rest ih =>
    unfold LogMerge.poll_pass_from
    split
    · split
      · case _ m1 e hps =>
        have h1 := poll_source_state_length m s
        rw [hps] at h1
        exact h1
      · case _ m1 hps =>
        have h1 := poll_source_state_length m s
        rw [hps] at h1
        rw [ih m1]
        exact h1
    · exact ih m

theorem poll_pass_from_sources_length (idxs : List Nat) (m : LogMerge) :
    ((m.poll_pass_from idxs).1).sources.length = m.sources.length := by
  induction idxs generalizing m with
  | nil => rfl
  | cons s rest ih =>
    unfold LogMerge.poll_pass_from
    split
    · split
      · case _ m1 e hps =>
        have h1 := poll_source_sources_length m s
        rw [hps] at h1
        exact h1
      · case _ m1 hps =>
        have h1 := poll_source_sources_length m s
        rw [hps] at h1
        rw [ih m1]
        exact h1
    · exact ih m

theorem poll_pass_from_finished_le (idxs : List Nat) (m : LogMerge) :
    m.finished ≤ ((m.poll_pass_from idxs).1).finished := by
  induction idxs generalizing m with
  | nil => exact Nat.le_refl _
  | cons s rest ih =>
    unfold LogMerge.poll_pass_from
    split
    · split
      · case _ m1 e hps =>
        have h1 := poll_source_finished_le m s
        rw [hps] at h1
        exact h1
      · case _ m1 hps =>
        have h1 := poll_source_finished_le m s
        rw [hps] at h1
        exact Nat.le_trans h1 (ih m1)
    · exact ih m

theorem poll_pass_from_delivered (idxs : List Nat) (m : LogMerge) (i : Nat)
    (h : m.source_state.getD i SourceState.Finished = SourceState.Delivered) :
    ((m.poll_pass_from idxs).1).source_state.getD i SourceState.Finished =
      SourceState.Delivered := by
  induction idxs generalizing m with
  | nil => exact h
  | cons s rest ih =>
    unfold LogMerge.poll_pass_from
    split
    · case _ hneq =>
      have hsi : s ≠ i := by
        intro he
        rw [he, h] at hneq
        exact SourceState.noConfusion hneq
      split
      · case _ m1 e hps =>
        have h1 := poll_source_state_ne m s i SourceState.Finished hsi
        rw [hps] at h1
        rw [h1]
        exact h
      · case _ m1 hps =>
        have h1 := poll_source_state_ne m s i SourceState.Finished hsi
        rw [hps] at h1
        exact ih m1 (by rw [h1]; exact h)
    · exact ih m h

theorem poll_pass_from_buffer (idxs : List Nat) (m : LogMerge)
    (hsort : idxs.Pairwise (· < ·)) :
    ∃ t, ((m.poll_pass_from idxs).1).buffer = m.buffer ++ t ∧
      (t.map LogLine.source_idx).Pairwise (· < ·) ∧
      ∀ a ∈ t.map LogLine.source_idx, a ∈ idxs := by
  induction idxs generalizing m with
  | nil => exact ⟨[], by simp [LogMerge.poll_pass_from], by simp, by simp⟩
  | cons s rest ih =>
    rcases List.pairwise_cons.mp hsort with ⟨hlt, hrest⟩
    unfold LogMerge.poll_pass_from
    split
    · split
      · case _ m1 e hps =>
        rcases poll_source_buffer m s with hb | ⟨line, hb⟩ <;> rw [hps] at hb <;>
          dsimp only at hb
        · exact ⟨[], by simp [hb], by simp, by simp⟩
        · exact ⟨[{ source_idx := s, line := line }], by simp [hb], by simp,
            by simp⟩
      · case _ m1 hps =>
        rcases ih m1 hrest with ⟨t1, hbuf1, hsort1, hmem1⟩
        rcases poll_source_buffer m s with hb | ⟨line, hb⟩ <;> rw [hps] at hb <;>
          dsimp only at hb
        · refine ⟨t1, by rw [hbuf1, hb], hsort1, ?_⟩
          intro a ha
          exact List.mem_cons_of_mem s (hmem1 a ha)
        · refine ⟨{ source_idx := s, line := line } :: t1, ?_, ?_, ?_⟩
          · rw [hbuf1, hb, List.append_assoc]
            rfl
          · rw [List.map_cons]
            apply List.pairwise_cons.mpr
            refine ⟨?_, hsort1⟩
            intro a ha
            exact hlt a (hmem1 a ha)
          · intro a ha
            rw [List.map_cons, List.mem_cons] at ha
            rcases ha with rfl | ha
            · exact List.mem_cons_self _ _
            · exact List.mem_cons_of_mem _ (hmem1 a ha)
    · rcases ih m hrest with ⟨t1, hbuf1, hsort1, hmem1⟩
      exact ⟨t1, hbuf1, hsort1, fun a ha => List.mem_cons_of_mem s (hmem1 a ha)⟩

/-! ## Invariant preservation -/

theorem countState_set_ne_entry (l : List SourceState) (s : Nat) (hs : s < l.length)
    (x a : SourceState) (hentry : l.get ⟨s, hs⟩ ≠ x) (ha : a ≠ x) :
    countState x (l.set s a) = countState x l := by
  have h1 := countState_set l s hs a x
  rw [if_neg hentry, if_neg ha] at h1
  omega

theorem countState_set_incr (l : List SourceState) (s : Nat) (hs : s < l.length)
    (x a : SourceState) (hentry : l.get ⟨s, hs⟩ ≠ x) (ha : a = x) :
    countState x (l.set s a) = countState x l + 1 := by
  have h1 := countState_set l s hs a x
  rw [if_neg hentry, if_pos ha] at h1
  omega

theorem countState_set_decr (l : List SourceState) (s : Nat) (hs : s < l.length)
    (x a : SourceState) (hentry : l.get ⟨s, hs⟩ = x) (ha : a ≠ x) :
    countState x (l.set s a) + 1 = countState x l := by
  have h1 := countState_set l s hs a x
  rw [if_pos hentry, if_neg ha] at h1
  omega

theorem poll_source_preserves (m : LogMerge) (s : Nat) (hInv : MergeInv m)
    (hst : m.source_state.getD s SourceState.Finished = SourceState.NeedsPoll) :
    MergeInv ((m.poll_source s).1) := by
  obtain ⟨hA, hB, hC, hD, hE⟩ := hInv
  have hs : s < m.source_state.length := by
    apply lt_length_of_getD_ne_default
    rw [hst]
    decide
  have hget : m.source_state.get ⟨s, hs⟩ = SourceState.NeedsPoll := by
    rw [← getD_eq_get m.source_state s SourceState.Finished hs, hst]
  have hnp : m.source_state.get ⟨s, hs⟩ ≠ SourceState.Delivered := by
    rw [hget]; decide
  have hnf : m.source_state.get ⟨s, hs⟩ ≠ SourceState.Finished := by
    rw [hget]; decide
  have hnotbuf : ∀ l ∈ m.buffer, l.source_idx ≠ s := by
    intro l hl he
    have h2 := (hD l hl).2
    rw [he, hst] at h2
    exact SourceState.noConfusion h2
  simp only [LogMerge.poll_source]
  split
  · -- Ok(Ready(Some(line))): buffer the line, status Delivered
    dsimp only [LogMerge.insert_into_buffer]
    refine ⟨?_, ?_, ?_, ?_, ?_⟩
    · simp [hA]
    · rw [countState_set_ne_entry m.source_state s hs _ _ hnf (by decide)]
      exact hB
    · rw [countState_set_incr m.source_state s hs _ _ hnp rfl]
      simp [hC]
    · intro l hl
      rw [List.mem_append, List.mem_singleton] at hl
      rcases hl with hl | rfl
      · refine ⟨by simpa using (hD l hl).1, ?_⟩
        rw [getD_set_ne _ s l.source_idx _ _ (fun he => hnotbuf l hl he.symm)]
        exact (hD l hl).2
      · refine ⟨by simpa using hs, ?_⟩
        exact getD_set_self m.source_state s SourceState.Delivered SourceState.Finished hs
    · rw [List.map_append, List.map_cons, List.map_nil, List.nodup_append]
      refine ⟨hE, List.nodup_singleton s, ?_⟩
      intro a ha hb
      rcases List.mem_map.mp ha with ⟨l, hl, rfl⟩
      rw [List.mem_singleton] at hb
      exact hnotbuf l hl hb
  · -- Ok(Ready(None)): status Finished, counter incremented
    dsimp only
    refine ⟨?_, ?_, ?_, ?_, ?_⟩
    · simp [hA]
    · rw [countState_set_incr m.source_state s hs _ _ hnf rfl]
      simp [hB]
    · rw [countState_set_ne_entry m.source_state s hs _ _ hnp (by decide)]
      exact hC
    · intro l hl
      refine ⟨by simpa using (hD l hl).1, ?_⟩
      rw [getD_set_ne _ s l.source_idx _ _ (fun he => hnotbuf l hl he.symm)]
      exact (hD l hl).2
    · exact hE
  · -- Ok(NotReady): status back to NeedsPoll
    dsimp only
    refine ⟨?_, ?_, ?_, ?_, ?_⟩
    · simp [hA]
    · rw [countState_set_ne_entry m.source_state s hs _ _ hnf (by decide)]
      exact hB
    · rw [countState_set_ne_entry m.source_state s hs _ _ hnp (by decide)]
      exact hC
    · intro l hl
      refine ⟨by simpa using (hD l hl).1, ?_⟩
      rw [getD_set_ne _ s l.source_idx _ _ (fun he => hnotbuf l hl he.symm)]
      exact (hD l hl).2
    · exact hE
  · -- Err(_): only the source itself advanced
    exact ⟨by simp [hA], hB, hC, hD, hE⟩

theorem poll_pass_from_preserves (idxs : List Nat) (m : LogMerge) (hInv : MergeInv m) :
    MergeInv ((m.poll_pass_from idxs).1) := by
  induction idxs generalizing m with
  | nil => exact hInv
  | cons s rest ih =>
    unfold LogMerge.poll_pass_from
    split
    · case _ hneq =>
      split
      · case _ m1 e hps =>
        have h1 := poll_source_preserves m s hInv hneq
        rw [hps] at h1
        exact h1
      · case _ m1 hps =>
        have h1 := poll_source_preserves m s hInv hneq
        rw [hps] at h1
        exact ih m1 h1
    · exact ih m hInv

theorem poll_pass_preserves (m : LogMerge) (hInv : MergeInv m) :
    MergeInv ((m.poll_pass).1) :=
  poll_pass_from_preserves _ m hInv

theorem poll_step_preserves (m : LogMerge) (hInv : MergeInv m) :
    MergeInv ((m.poll_step).2) := by
  have hpass := poll_pass_preserves m hInv
  unfold LogMerge.poll_step
  split
  · case _ m1 e hps =>
    rw [hps] at hpass
    exact hpass
  · case _ m1 hps =>
    rw [hps] at hpass
    have hp1 : MergeInv m1 := hpass
    obtain ⟨hA, hB, hC, hD, hE⟩ := hp1
    split
    · split
      · exact ⟨hA, hB, hC, hD, hE⟩
      · case _ l rest hbuf =>
        have hl : l ∈ m1.buffer := by rw [hbuf]; exact List.mem_cons_self _ _
        have hlt : l.source_idx < m1.source_state.length := (hD l hl).1
        have hdel : m1.source_state.getD l.source_idx SourceState.Finished =
            SourceState.Delivered := (hD l hl).2
        have hdget : m1.source_state.get ⟨l.source_idx, hlt⟩ = SourceState.Delivered := by
          rw [← getD_eq_get m1.source_state l.source_idx SourceState.Finished hlt, hdel]
        have hnodup : ∀ x ∈ rest, x.source_idx ≠ l.source_idx := by
          have hE2 := hE
          rw [hbuf, List.map_cons, List.nodup_cons] at hE2
          intro x hx he
          exact hE2.1 (he ▸ List.mem_map_of_mem LogLine.source_idx hx)
        dsimp only
        refine ⟨?_, ?_, ?_, ?_, ?_⟩
        · simp [hA]
        · rw [countState_set_ne_entry m1.source_state l.source_idx hlt _ _
            (by rw [hdget]; decide) (by decide)]
          exact hB
        · show rest.length = countState SourceState.Delivered
            (m1.source_state.set l.source_idx SourceState.NeedsPoll)
          have hdec := countState_set_decr m1.source_state l.source_idx hlt _
            SourceState.NeedsPoll hdget (by decide)
          have hlen : m1.buffer.length = rest.length + 1 := by rw [hbuf]; simp
          omega
        · intro x hx
          have hxm : x ∈ m1.buffer := by rw [hbuf]; exact List.mem_cons_of_mem l hx
          refine ⟨by simpa using (hD x hxm).1, ?_⟩
          rw [getD_set_ne _ l.source_idx x.source_idx _ _
            (fun he => hnodup x hx he.symm)]
          exact (hD x hxm).2
        · have hE2 := hE
          rw [hbuf, List.map_cons, List.nodup_cons] at hE2
          exact hE2.2
    · exact ⟨hA, hB, hC, hD, hE⟩
    · exact ⟨hA, hB, hC, hD, hE⟩

theorem new_inv (srcs : List (List PollResult)) : MergeInv (LogMerge.new srcs) := by
  refine ⟨by simp [LogMerge.new], ?_, ?_, by simp [LogMerge.new], by simp [LogMerge.new]⟩
  · simp [LogMerge.new, countState_replicate]
  · simp [LogMerge.new, countState_replicate]

theorem steps_inv (m : LogMerge) (hInv : MergeInv m) (k : Nat) :
    MergeInv (m.steps k) := by
  induction k generalizing m with
  | zero => exact hInv
  | succ n ih => exact ih _ (poll_step_preserves m hInv)

theorem reachable_inv (m : LogMerge) (h : Reachable m) : MergeInv m := by
  rcases h with ⟨srcs, k, rfl⟩
  exact steps_inv _ (new_inv srcs) k

/-! ## Characterisations of the derived state and of `poll_step` -/

theorem state_finished_iff (m : LogMerge) :
    m.state = SourceState.Finished ↔ m.sources.length - m.finished = 0 := by
  unfold LogMerge.state
  by_cases h0 : m.sources.length - m.finished = 0
  · simp [h0]
  · by_cases h1 : m.sources.length - m.finished = m.buffer.length <;> simp [h0, h1]

theorem state_delivered_iff (m : LogMerge) :
    m.state = SourceState.Delivered ↔
      m.sources.length - m.finished ≠ 0 ∧
        m.sources.length - m.finished = m.buffer.length := by
  unfold LogMerge.state
  by_cases h0 : m.sources.length - m.finished = 0
  · simp [h0]
  · by_cases h1 : m.sources.length - m.finished = m.buffer.length <;> simp [h0, h1]

theorem state_needspoll_iff (m : LogMerge) :
    m.state = SourceState.NeedsPoll ↔
      m.sources.length - m.finished ≠ 0 ∧
        m.sources.length - m.finished ≠ m.buffer.length := by
  constructor
  · intro h
    refine ⟨?_, ?_⟩
    · intro h0
      rw [(state_finished_iff m).mpr h0] at h
      exact SourceState.noConfusion h
    · intro h1
      by_cases h0 : m.sources.length - m.finished = 0
      · rw [(state_finished_iff m).mpr h0] at h
        exact SourceState.noConfusion h
      · rw [(state_delivered_iff m).mpr ⟨h0, h1⟩] at h
        exact SourceState.noConfusion h
  · rintro ⟨h0, h1⟩
    unfold LogMerge.state
    simp [h0, h1]

theorem state_delivered_buffer_ne_nil (m : LogMerge)
    (h : m.state = SourceState.Delivered) : m.buffer ≠ [] := by
  rcases (state_delivered_iff m).mp h with ⟨h0, h1⟩
  intro hnil
  rw [hnil] at h1
  simp at h1
  exact h0 h1

theorem poll_step_eq_of_pass_err (m m1 : LogMerge) (e : LogMergeError)
    (hp : m.poll_pass = (m1, some e)) : m.poll_step = (PollStep.error, m1) := by
  unfold LogMerge.poll_step
  rw [hp]

theorem poll_step_eq_of_pass_ok (m m1 : LogMerge) (hp : m.poll_pass = (m1, none)) :
    m.poll_step =
      (match m1.state with
        | SourceState.Delivered =>
          match m1.buffer with
          | [] => (PollStep.panicked, m1)
          | l :: rest =>
            (PollStep.item l,
              { m1 with
                  buffer := rest
                  source_state := m1.source_state.set l.source_idx SourceState.NeedsPoll })
        | SourceState.Finished => (PollStep.done, m1)
        | SourceState.NeedsPoll => (PollStep.notReady, m1)) := by
  unfold LogMerge.poll_step
  rw [hp]

theorem poll_step_eq_done (m m1 : LogMerge) (hp : m.poll_pass = (m1, none))
    (hs : m1.state = SourceState.Finished) : m.poll_step = (PollStep.done, m1) := by
  rw [poll_step_eq_of_pass_ok m m1 hp, hs]

theorem poll_step_eq_notready (m m1 : LogMerge) (hp : m.poll_pass = (m1, none))
    (hs : m1.state = SourceState.NeedsPoll) :
    m.poll_step = (PollStep.notReady, m1) := by
  rw [poll_step_eq_of_pass_ok m m1 hp, hs]

theorem poll_step_eq_item (m m1 : LogMerge) (l : LogLine) (rest : List LogLine)
    (hp : m.poll_pass = (m1, none)) (hs : m1.state = SourceState.Delivered)
    (hb : m1.buffer = l :: rest) :
    m.poll_step =
      (PollStep.item l,
        { m1 with
            buffer := rest
            source_state := m1.source_state.set l.source_idx SourceState.NeedsPoll }) := by
  rw [poll_step_eq_of_pass_ok m m1 hp, hs, hb]

theorem poll_step_no_panic (m : LogMerge) : (m.poll_step).1 ≠ PollStep.panicked := by
  rcases hp : m.poll_pass with ⟨m1, e⟩
  cases e with
  | some e => rw [poll_step_eq_of_pass_err m m1 e hp]; simp
  | none =>
    rcases hs : m1.state with _ | _ | _
    · rw [poll_step_eq_notready m m1 hp hs]; simp
    · rcases hb : m1.buffer with _ | ⟨l, rest⟩
      · exact absurd hb (state_delivered_buffer_ne_nil m1 hs)
      · rw [poll_step_eq_item m m1 l rest hp hs hb]; simp
    · rw [poll_step_eq_done m m1 hp hs]; simp

theorem poll_step_done_cases (m : LogMerge) (hdone : (m.poll_step).1 = PollStep.done) :
    m.poll_pass = ((m.poll_step).2, none) ∧
      ((m.poll_step).2).state = SourceState.Finished := by
  rcases hp : m.poll_pass with ⟨m1, e⟩
  cases e with
  | some e =>
    rw [poll_step_eq_of_pass_err m m1 e hp] at hdone
    simp at hdone
  | none =>
    rcases hs : m1.state with _ | _ | _
    · rw [poll_step_eq_notready m m1 hp hs] at hdone
      simp at hdone
    · rcases hb : m1.buffer with _ | ⟨l, rest⟩
      · exact absurd hb (state_delivered_buffer_ne_nil m1 hs)
      · rw [poll_step_eq_item m m1 l rest hp hs hb] at hdone
        simp at hdone
    · rw [poll_step_eq_done m m1 hp hs]
      exact ⟨rfl, hs⟩

theorem poll_step_item_cases (m : LogMerge) (l : LogLine)
    (hit : (m.poll_step).1 = PollStep.item l) :
    ∃ m1 rest, m.poll_pass = (m1, none) ∧ m1.state = SourceState.Delivered ∧
      m1.buffer = l :: rest ∧
      (m.poll_step).2 =
        { m1 with
            buffer := rest
            source_state := m1.source_state.set l.source_idx SourceState.NeedsPoll } := by
  rcases hp : m.poll_pass with ⟨m1, e⟩
  cases e with
  | some e =>
    rw [poll_step_eq_of_pass_err m m1 e hp] at hit
    simp at hit
  | none =>
    rcases hs : m1.state with _ | _ | _
    · rw [poll_step_eq_notready m m1 hp hs] at hit
      simp at hit
    · rcases hb : m1.buffer with _ | ⟨l0, rest⟩
      · exact absurd hb (state_delivered_buffer_ne_nil m1 hs)
      · rw [poll_step_eq_item m m1 l0 rest hp hs hb] at hit
        simp at hit
        subst hit
        exact ⟨m1, rest, rfl, hs, hb, by rw [poll_step_eq_item m m1 l0 rest hp hs hb]⟩
    · rw [poll_step_eq_done m m1 hp hs] at hit
      simp at hit

theorem poll_step_notready_cases (m : LogMerge)
    (h : (m.poll_step).1 = PollStep.notReady) :
    m.poll_pass = ((m.poll_step).2, none) ∧
      ((m.poll_step).2).state = SourceState.NeedsPoll := by
  rcases hp : m.poll_pass with ⟨m1, e⟩
  cases e with
  | some e =>
    rw [poll_step_eq_of_pass_err m m1 e hp] at h
    simp at h
  | none =>
    rcases hs : m1.state with _ | _ | _
    · rw [poll_step_eq_notready m m1 hp hs]
      exact ⟨rfl, hs⟩
    · rcases hb : m1.buffer with _ | ⟨l, rest⟩
      · exact absurd hb (state_delivered_buffer_ne_nil m1 hs)
      · rw [poll_step_eq_item m m1 l rest hp hs hb] at h
        simp at h
    · rw [poll_step_eq_done m m1 hp hs] at h
      simp at h

theorem poll_step_error_cases (m : LogMerge)
    (h : (m.poll_step).1 = PollStep.error) :
    m.poll_pass = ((m.poll_step).2, some LogMergeError.DefaultError) := by
  rcases hp : m.poll_pass with ⟨m1, e⟩
  cases e with
  | some e =>
    rw [poll_step_eq_of_pass_err m m1 e hp]
  | none =>
    rcases hs : m1.state with _ | _ | _
    · rw [poll_step_eq_notready m m1 hp hs] at h
      simp at h
    · rcases hb : m1.buffer with _ | ⟨l, rest⟩
      · exact absurd hb (state_delivered_buffer_ne_nil m1 hs)
      · rw [poll_step_eq_item m m1 l rest hp hs hb] at h
        simp at h
    · rw [poll_step_eq_done m m1 hp hs] at h
      simp at h

/-! ## Termination behaviour -/

theorem pass_skip_all_finished (idxs : List Nat) (m : LogMerge)
    (h : ∀ st ∈ m.source_state, st = SourceState.Finished) :
    m.poll_pass_from idxs = (m, none) := by
  induction idxs with
  | nil => rfl
  | cons s rest ih =>
    unfold LogMerge.poll_pass_from
    have hgd : m.source_state.getD s SourceState.Finished = SourceState.Finished := by
      by_cases hs : s < m.source_state.length
      · rw [getD_eq_get _ _ _ hs]
        exact h _ (List.get_mem _ s hs)
      · exact List.getD_eq_default _ _ (Nat.le_of_not_lt hs)
    rw [hgd]
    exact ih

theorem all_finished_of_done (m : LogMerge) (hInv : MergeInv m)
    (hdone : m.sources.length - m.finished = 0) :
    ∀ st ∈ m.source_state, st = SourceState.Finished := by
  obtain ⟨hA, hB, hC, hD, hE⟩ := hInv
  have hle := countState_le_length SourceState.Finished m.source_state
  have hcnt : countState SourceState.Finished m.source_state = m.source_state.length := by
    omega
  exact all_eq_of_countState_eq_length hcnt

theorem finished_ge_of_done (m : LogMerge)
    (hdone : m.sources.length - m.finished = 0) :
    m.sources.length ≤ m.finished := by
  omega

theorem done_fixpoint (m : LogMerge)
    (hfin : ∀ st ∈ m.source_state, st = SourceState.Finished)
    (hcnt : m.sources.length ≤ m.finished) :
    m.poll_step = (PollStep.done, m) := by
  have hpass : m.poll_pass = (m, none) :=
    pass_skip_all_finished (List.range m.source_state.length) m hfin
  exact poll_step_eq_done m m hpass
    ((state_finished_iff m).mpr (Nat.sub_eq_zero_of_le hcnt))

theorem steps_of_fixpoint (m : LogMerge) (hfix : m.poll_step = (PollStep.done, m)) :
    ∀ k, m.steps k = m := by
  intro k
  induction k with
  | zero => rfl
  | succ n ih =>
    show ((m.poll_step).2).steps n = m
    rw [hfix]
    exact ih

/-! ## Failure behaviour of the polling pass -/

theorem poll_source_err_inv (m : LogMerge) (s : Nat) (m1 : LogMerge) (e : LogMergeError)
    (h : m.poll_source s = (m1, some e)) :
    (m.sources.getD s []).headD PollResult.notReady = PollResult.error ∧
      m1 = { m with sources := m.sources.set s (m.sources.getD s []).tail } := by
  revert h
  unfold LogMerge.poll_source
  split
  · intro h
    simp at h
  · intro h
    simp at h
  · intro h
    simp at h
  · case _ heq =>
    intro h
    rw [Prod.mk.injEq] at h
    exact ⟨heq, h.1.symm⟩

theorem script_error_lt (m : LogMerge) (s : Nat)
    (hhd : (m.sources.getD s []).headD PollResult.notReady = PollResult.error) :
    s < m.sources.length := by
  by_contra hge
  rw [List.getD_eq_default _ _ (Nat.le_of_not_lt hge)] at hhd
  simp at hhd

theorem pass_error_of_needspoll (idxs : List Nat) (m : LogMerge) (i : Nat)
    (hi : i ∈ idxs)
    (hst : m.source_state.getD i SourceState.Finished = SourceState.NeedsPoll)
    (hhd : (m.sources.getD i []).headD PollResult.notReady = PollResult.error) :
    (m.poll_pass_from idxs).2 = some LogMergeError.DefaultError ∧
      ((m.poll_pass_from idxs).1).source_state.getD i SourceState.Finished =
        SourceState.NeedsPoll ∧
      (((m.poll_pass_from idxs).1).sources.getD i [] = m.sources.getD i [] ∨
        ((m.poll_pass_from idxs).1).sources.getD i [] = (m.sources.getD i []).tail) := by
  induction idxs generalizing m with
  | nil => cases hi
  | cons s rest ih =>
    by_cases hsi : s = i
    · subst hsi
      have hlt : s < m.sources.length := script_error_lt m s hhd
      have hps : m.poll_source s =
          ({ m with sources := m.sources.set s (m.sources.getD s []).tail },
            some LogMergeError.DefaultError) := by
        unfold LogMerge.poll_source
        rw [hhd]
      unfold LogMerge.poll_pass_from
      rw [hst, hps]
      exact ⟨rfl, hst, Or.inr (getD_set_self m.sources s _ [] hlt)⟩
    · have hi2 : i ∈ rest := by
        rcases List.mem_cons.mp hi with he | hr
        · exact absurd he.symm hsi
        · exact hr
      unfold LogMerge.poll_pass_from
      split
      · split
        · case _ m1 e hps =>
          have h2 := poll_source_state_ne m s i SourceState.Finished hsi
          have h3 := poll_source_sources_ne m s i hsi
          rw [hps] at h2 h3
          refine ⟨rfl, ?_, Or.inl ?_⟩
          · rw [h2]
            exact hst
          · exact h3
        · case _ m1 hps =>
          have h2 := poll_source_state_ne m s i SourceState.Finished hsi
          have h3 := poll_source_sources_ne m s i hsi
          rw [hps] at h2 h3
          have hres := ih m1 hi2 (by rw [h2]; exact hst) (by rw [h3]; exact hhd)
          refine ⟨hres.1, hres.2.1, ?_⟩
          rcases hres.2.2 with h4 | h4
          · exact Or.inl (by rw [h4, h3])
          · exact Or.inr (by rw [h4, h3])
      · exact ih m hi2 hst hhd

theorem pass_error_source (idxs : List Nat) (m m2 : LogMerge) (hnd : idxs.Nodup)
    (hres : m.poll_pass_from idxs = (m2, some LogMergeError.DefaultError)) :
    ∃ s, s ∈ idxs ∧
      m.source_state.getD s SourceState.Finished = SourceState.NeedsPoll ∧
      m2.source_state.getD s SourceState.Finished = SourceState.NeedsPoll ∧
      (m.sources.getD s []).headD PollResult.notReady = PollResult.error ∧
      m2.sources.getD s [] = (m.sources.getD s []).tail := by
  induction idxs generalizing m with
  | nil =>
    simp [LogMerge.poll_pass_from] at hres
  | cons s rest ih =>
    rw [List.nodup_cons] at hnd
    unfold LogMerge.poll_pass_from at hres
    split at hres
    · case _ hneq =>
      split at hres
      · case _ m1 e hps =>
        rw [Prod.mk.injEq] at hres
        obtain ⟨rfl, he⟩ := hres
        obtain ⟨hhd, rfl⟩ := poll_source_err_inv m s m1 e hps
        have hlt : s < m.sources.length := script_error_lt m s hhd
        exact ⟨s, List.mem_cons_self _ _, hneq, hneq,
          hhd, getD_set_self m.sources s _ [] hlt⟩
      · case _ m1 hps =>
        obtain ⟨t, htmem, hst1, hst2, hhd1, hscr⟩ := ih m1 hnd.2 hres
        have hts : t ≠ s := fun he => hnd.1 (he ▸ htmem)
        have h2 := poll_source_state_ne m s t SourceState.Finished (fun he => hts he.symm)
        have h3 := poll_source_sources_ne m s t (fun he => hts he.symm)
        rw [hps] at h2 h3
        refine ⟨t, List.mem_cons_of_mem s htmem, ?_, hst2, ?_, ?_⟩
        · rw [← h2]
          exact hst1
        · rw [← h3]
          exact hhd1
        · rw [hscr, h3]
    · obtain ⟨t, htmem, hst1, hst2, hhd1, hscr⟩ := ih m hnd.2 hres
      exact ⟨t, List.mem_cons_of_mem s htmem, hst1, hst2, hhd1, hscr⟩

theorem poll_pass_buffer (m : LogMerge) :
    ∃ t, ((m.poll_pass).1).buffer = m.buffer ++ t ∧
      (t.map LogLine.source_idx).Pairwise (· < ·) ∧
      ∀ a ∈ t.map LogLine.source_idx, a ∈ List.range m.source_state.length :=
  poll_pass_from_buffer _ m (List.pairwise_lt_range _)

/-! ## Trace equations -/

theorem trace_succ_item (m m1 : LogMerge) (l : LogLine)
    (hstep : m.poll_step = (PollStep.item l, m1)) (n : Nat) :
    m.trace (n + 1) = l :: m1.trace n := by
  conv_lhs => rw [LogMerge.trace]
  rw [hstep]

theorem trace_succ_other (m m1 : LogMerge) (o : PollStep)
    (hstep : m.poll_step = (o, m1)) (hno : ∀ l, o ≠ PollStep.item l) (n : Nat) :
    m.trace (n + 1) = m1.trace n := by
  conv_lhs => rw [LogMerge.trace]
  rw [hstep]
  cases o with
  | item l => exact absurd rfl (hno l)
  | done => rfl
  | notReady => rfl
  | error => rfl
  | panicked => rfl

/-! ## The separation invariant: a pending line of source `j` ahead of every
line of source `i` stays ahead until it is released -/

theorem sep_inv_step (i j : Nat) (m : LogMerge) (h : SepInv i j m) :
    (∃ l, (m.poll_step).1 = PollStep.item l ∧ l.source_idx = j) ∨
      (SepInv i j (m.poll_step).2 ∧
        ∀ l, (m.poll_step).1 = PollStep.item l → l.source_idx ≠ i) := by
  obtain ⟨pre, jl, post, hbuf, hjl, hpre⟩ := h
  rcases hp : m.poll_pass with ⟨m1, e⟩
  obtain ⟨t, hbt, _, _⟩ := poll_pass_buffer m
  rw [hp] at hbt
  have hbt1 : m1.buffer = pre ++ jl :: (post ++ t) := by
    show (m1, e).1.buffer = _
    rw [hbt, hbuf]
    simp
  cases e with
  | some e =>
    rw [poll_step_eq_of_pass_err m m1 e hp]
    right
    refine ⟨⟨pre, jl, post ++ t, hbt1, hjl, hpre⟩, ?_⟩
    intro l hl
    simp at hl
  | none =>
    rcases hs : m1.state with _ | _ | _
    · rw [poll_step_eq_notready m m1 hp hs]
      right
      refine ⟨⟨pre, jl, post ++ t, hbt1, hjl, hpre⟩, ?_⟩
      intro l hl
      simp at hl
    · rcases hb : m1.buffer with _ | ⟨l0, rest⟩
      · exact absurd hb (state_delivered_buffer_ne_nil m1 hs)
      · rw [poll_step_eq_item m m1 l0 rest hp hs hb]
        have hbuf1 : pre ++ jl :: (post ++ t) = l0 :: rest := by
          rw [← hbt1, hb]
        cases pre with
        | nil =>
          left
          rw [List.nil_append] at hbuf1
          injection hbuf1 with h1 h2
          exact ⟨l0, rfl, by rw [← h1]; exact hjl⟩
        | cons x pre2 =>
          right
          rw [List.cons_append] at hbuf1
          injection hbuf1 with h1 h2
          refine ⟨⟨pre2, jl, post ++ t, ?_, hjl, ?_⟩, ?_⟩
          · exact h2.symm
          · intro y hy
            exact hpre y (List.mem_cons_of_mem x hy)
          · intro l hl
            have hll : l0 = l := by simpa using hl
            rw [← hll, ← h1]
            exact hpre x (List.mem_cons_self _ _)
    · rw [poll_step_eq_done m m1 hp hs]
      right
      refine ⟨⟨pre, jl, post ++ t, hbt1, hjl, hpre⟩, ?_⟩
      intro l hl
      simp at hl

theorem sep_inv_trace (i j : Nat) (hij : j ≠ i) :
    ∀ (k : Nat) (m : LogMerge), SepInv i j m →
      ∀ (p : Nat) (lp : LogLine), (m.trace k)[p]? = some lp →
      lp.source_idx = i →
      ∃ (r : Nat) (lr : LogLine), r < p ∧ (m.trace k)[r]? = some lr ∧
        lr.source_idx = j := by
  intro k
  induction k with
  | zero =>
    intro m hsep p lp hget hpi
    simp [LogMerge.trace] at hget
  | succ n ih =>
    intro m hsep p lp hget hpi
    rcases sep_inv_step i j m hsep with ⟨l, hl, hlj⟩ | ⟨hsep1, hnoti⟩
    · rcases hstep : m.poll_step with ⟨o, m1⟩
      rw [hstep] at hl
      have ho : o = PollStep.item l := hl
      subst ho
      have htr := trace_succ_item m m1 l hstep n
      rw [htr] at hget ⊢
      cases p with
      | zero =>
        rw [List.getElem?_cons_zero] at hget
        have hlp : l = lp := by simpa using hget
        rw [← hlp, hlj] at hpi
        exact absurd hpi hij
      | succ p2 =>
        exact ⟨0, l, Nat.succ_pos _, List.getElem?_cons_zero, hlj⟩
    · rcases hstep : m.poll_step with ⟨o, m1⟩
      have hsep2 : SepInv i j m1 := by
        rw [hstep] at hsep1
        exact hsep1
      cases o with
      | item l =>
        have hli : l.source_idx ≠ i := by
          apply hnoti
          rw [hstep]
        have htr := trace_succ_item m m1 l hstep n
        rw [htr] at hget ⊢
        cases p with
        | zero =>
          rw [List.getElem?_cons_zero] at hget
          have hlp : l = lp := by simpa using hget
          exact absurd (by rw [← hlp] at hpi; exact hpi) hli
        | succ p2 =>
          rw [List.getElem?_cons_succ] at hget
          obtain ⟨r, lr, hrp, hrget, hrj⟩ := ih m1 hsep2 p2 lp hget hpi
          exact ⟨r + 1, lr, Nat.succ_lt_succ hrp,
            by rw [List.getElem?_cons_succ]; exact hrget, hrj⟩
      | done =>
        have htr := trace_succ_other m m1 PollStep.done hstep (by intro l h; simp at h) n
        rw [htr] at hget ⊢
        exact ih m1 hsep2 p lp hget hpi
      | notReady =>
        have htr := trace_succ_other m m1 PollStep.notReady hstep
          (by intro l h; simp at h) n
        rw [htr] at hget ⊢
        exact ih m1 hsep2 p lp hget hpi
      | error =>
        have htr := trace_succ_other m m1 PollStep.error hstep
          (by intro l h; simp at h) n
        rw [htr] at hget ⊢
        exact ih m1 hsep2 p lp hget hpi
      | panicked =>
        have htr := trace_succ_other m m1 PollStep.panicked hstep
          (by intro l h; simp at h) n
        rw [htr] at hget ⊢
        exact ih m1 hsep2 p lp hget hpi

theorem round_complete_line (m : LogMerge) (hInv : MergeInv m)
    (hfull : m.sources.length - m.finished = m.buffer.length) (j : Nat)
    (hj : m.source_state.getD j SourceState.Finished ≠ SourceState.Finished) :
    ∃ jl ∈ m.buffer, jl.source_idx = j := by
  obtain ⟨hA, hB, hC, hD, hE⟩ := hInv
  have hjlt : j < m.source_state.length := lt_length_of_getD_ne_default hj
  have hpart := countState_partition m.source_state
  have hFle := countState_le_length SourceState.Finished m.source_state
  have hNP : countState SourceState.NeedsPoll m.source_state = 0 := by omega
  have hne := ne_of_countState_eq_zero hNP _ (getD_mem m.source_state j SourceState.Finished hjlt)
  have hjd : m.source_state.getD j SourceState.Finished = SourceState.Delivered := by
    rcases hval : m.source_state.getD j SourceState.Finished with _ | _ | _
    · exact absurd hval hne
    · rfl
    · exact absurd hval hj
  have hdlN : ((List.range m.source_state.length).filter
      (fun s => decide (m.source_state.getD s SourceState.Finished =
        SourceState.Delivered))).Nodup := (List.nodup_range _).filter _
  have hsub : (m.buffer.map LogLine.source_idx) ⊆
      (List.range m.source_state.length).filter
        (fun s => decide (m.source_state.getD s SourceState.Finished =
          SourceState.Delivered)) := by
    intro a ha
    rcases List.mem_map.mp ha with ⟨lb, hlb, rfl⟩
    exact List.mem_filter.mpr
      ⟨List.mem_range.mpr (hD lb hlb).1, by simpa using (hD lb hlb).2⟩
  have hlen := length_filter_range_getD m.source_state SourceState.Delivered
    SourceState.Finished
  have hperm := (hE.subperm hsub).perm_of_length_le
    (by rw [hlen, List.length_map]; omega)
  have hjin : j ∈ m.buffer.map LogLine.source_idx := by
    rw [hperm.mem_iff]
    exact List.mem_filter.mpr ⟨List.mem_range.mpr hjlt, by simpa using hjd⟩
  rcases List.mem_map.mp hjin with ⟨jl, hjl, hjs⟩
  exact ⟨jl, hjl, hjs⟩

theorem release_establishes_sep (m : LogMerge) (hInv : MergeInv m) (l : LogLine)
    (hrel : (m.poll_step).1 = PollStep.item l) (j : Nat) (hj : j ≠ l.source_idx)
    (hunf : ((m.poll_pass).1).source_state.getD j SourceState.Finished ≠
      SourceState.Finished) :
    SepInv l.source_idx j (m.poll_step).2 := by
  obtain ⟨m1, rest, hp, hs, hb, hm2⟩ := poll_step_item_cases m l hrel
  have hInv1 : MergeInv m1 := by
    have h1 := poll_pass_preserves m hInv
    rw [hp] at h1
    exact h1
  have hfull : m1.sources.length - m1.finished = m1.buffer.length :=
    ((state_delivered_iff m1).mp hs).2
  have hunf1 : m1.source_state.getD j SourceState.Finished ≠ SourceState.Finished := by
    rw [hp] at hunf
    exact hunf
  obtain ⟨jl, hjlmem, hjls⟩ := round_complete_line m1 hInv1 hfull j hunf1
  have hjlrest : jl ∈ rest := by
    rw [hb] at hjlmem
    rcases List.mem_cons.mp hjlmem with rfl | hr
    · exact absurd hjls.symm hj
    · exact hr
  have hnoi : ∀ x ∈ rest, x.source_idx ≠ l.source_idx := by
    obtain ⟨_, _, _, _, hE⟩ := hInv1
    rw [hb, List.map_cons, List.nodup_cons] at hE
    intro x hx he
    exact hE.1 (he ▸ List.mem_map_of_mem LogLine.source_idx hx)
  obtain ⟨pre, post, hsplit⟩ := List.append_of_mem hjlrest
  refine ⟨pre, jl, post, ?_, hjls, ?_⟩
  · rw [hm2]
    exact hsplit
  · intro x hx
    exact hnoi x (by rw [hsplit]; exact List.mem_append_left _ hx)

/-! ## Relating the string-level `poll` output to `poll_step` -/

theorem step_output_item (m : LogMerge) (x : String)
    (h : (m.poll).1 = PollOutput.item x) :
    ∃ l, (m.poll_step).1 = PollStep.item l ∧ l.line = x := by
  have h2 : stepOutput (m.poll_step).1 = PollOutput.item x := h
  rcases ho : (m.poll_step).1 with l | _ | _ | _ | _ <;> rw [ho] at h2 <;>
    simp [stepOutput] at h2
  exact ⟨l, rfl, h2⟩

theorem step_output_done (m : LogMerge) (h : (m.poll).1 = PollOutput.done) :
    (m.poll_step).1 = PollStep.done := by
  have h2 : stepOutput (m.poll_step).1 = PollOutput.done := h
  rcases ho : (m.poll_step).1 with l | _ | _ | _ | _ <;> rw [ho] at h2 <;>
    simp [stepOutput] at h2

theorem step_output_error (m : LogMerge) (h : (m.poll).1 = PollOutput.error) :
    (m.poll_step).1 = PollStep.error := by
  have h2 : stepOutput (m.poll_step).1 = PollOutput.error := h
  rcases ho : (m.poll_step).1 with l | _ | _ | _ | _ <;> rw [ho] at h2 <;>
    simp [stepOutput] at h2

/-! ## Claim theorems -/

/-- C1, counterexample: release order within a completed round is NOT
independent of arrival timing.  Source 1's line arrives in the first polling
pass, source 0's line only in the second; at the second call the round is
complete (both sources unfinished — `finished = 0` — and each has exactly one
buffered line), yet the lines are released as source 1 first, then source 0 —
descending registration index, following arrival (FIFO) order. -/
theorem release_order_depends_on_arrival :
    ((LogMerge.new
        [[PollResult.notReady, PollResult.readySome "a", PollResult.readyNone],
          [PollResult.readySome "b", PollResult.readyNone]]).outputs 4 =
      [PollOutput.notReady, PollOutput.item "b", PollOutput.item "a",
        PollOutput.done]) ∧
    ((LogMerge.new
        [[PollResult.notReady, PollResult.readySome "a", PollResult.readyNone],
          [PollResult.readySome "b", PollResult.readyNone]]).trace 4 =
      [{ source_idx := 1, line := "b" }, { source_idx := 0, line := "a" }]) ∧
    ((((LogMerge.new
        [[PollResult.notReady, PollResult.readySome "a", PollResult.readyNone],
          [PollResult.readySome "b", PollResult.readyNone]]).steps 1).poll_pass).1.buffer =
      [{ source_idx := 1, line := "b" }, { source_idx := 0, line := "a" }]) ∧
    ((((LogMerge.new
        [[PollResult.notReady, PollResult.readySome "a", PollResult.readyNone],
          [PollResult.readySome "b", PollResult.readyNone]]).steps 1).poll_pass).1.finished
      = 0) := by decide

/-- C1, amended: whenever a call releases a line, the released line is the
front (earliest enqueued) line of the FIFO buffer after the polling pass, and
the lines enqueued during that pass carry strictly ascending source indices.
Hence a round whose lines were all buffered in a single pass is released in
ascending source registration index, while lines buffered in different passes
are released in arrival order. -/
theorem release_front_fifo_pass_ascending (m : LogMerge) (x : String)
    (h : (m.poll).1 = PollOutput.item x) :
    ∃ l rest t,
      ((m.poll_pass).1).buffer = l :: rest ∧
      x = l.line ∧
      ((m.poll).2).buffer = rest ∧
      ((m.poll_pass).1).buffer = m.buffer ++ t ∧
      (t.map LogLine.source_idx).Pairwise (· < ·) := by
  obtain ⟨l, hstep, hline⟩ := step_output_item m x h
  obtain ⟨m1, rest, hp, hs, hb, hm2⟩ := poll_step_item_cases m l hstep
  obtain ⟨t, ht, hsort, _⟩ := poll_pass_buffer m
  refine ⟨l, rest, t, ?_, hline.symm, ?_, ht, hsort⟩
  · rw [hp]
    exact hb
  · show ((m.poll_step).2).buffer = rest
    rw [hm2]

/-- Witness for `release_front_fifo_pass_ascending`: two immediately-ready
sources; the first call releases source 0's line from the buffer front. -/
theorem release_front_fifo_pass_ascending_witness :
    ∃ l rest t,
      (((LogMerge.new [[PollResult.readySome "a"],
          [PollResult.readySome "b"]]).poll_pass).1).buffer = l :: rest ∧
      "a" = l.line ∧
      (((LogMerge.new [[PollResult.readySome "a"],
          [PollResult.readySome "b"]]).poll).2).buffer = rest ∧
      (((LogMerge.new [[PollResult.readySome "a"],
          [PollResult.readySome "b"]]).poll_pass).1).buffer =
        (LogMerge.new [[PollResult.readySome "a"],
          [PollResult.readySome "b"]]).buffer ++ t ∧
      (t.map LogLine.source_idx).Pairwise (· < ·) :=
  release_front_fifo_pass_ascending
    (LogMerge.new [[PollResult.readySome "a"], [PollResult.readySome "b"]])
    "a" (by decide)

/-- C2, counterexample: a source that fails on its first poll and produces a
line on its second.  The first call returns the failure, but the second call
returns an item — the failed state is not absorbing and lines can be produced
after a failure was reported. -/
theorem failure_not_absorbing :
    (LogMerge.new [[PollResult.error, PollResult.readySome "x"]]).outputs 2 =
      [PollOutput.error, PollOutput.item "x"] := by decide

/-- C2, amended: the failure is returned from the very call that discovered
it, and as long as the failing source keeps reporting failure on every
subsequent poll, every subsequent call returns the failure and no item is
produced.  (The scheduler records no failed state, so this holds only because
the still-`NeedsPoll` failing source is re-polled and fails again each call;
if it later yields an item, items flow again — see
`failure_not_absorbing`.) -/
theorem failure_sync_and_repeat (m : LogMerge) (i k : Nat)
    (hst : m.source_state.getD i SourceState.Finished = SourceState.NeedsPoll)
    (hlen : k ≤ (m.sources.getD i []).length)
    (herr : ∀ r ∈ (m.sources.getD i []).take k, r = PollResult.error) :
    m.outputs k = List.replicate k PollOutput.error := by
  induction k generalizing m with
  | zero => rfl
  | succ n ih =>
    have hne : m.sources.getD i [] ≠ [] := by
      intro hnil
      rw [hnil] at hlen
      simp at hlen
    have hhd : (m.sources.getD i []).headD PollResult.notReady = PollResult.error := by
      rcases hscr : m.sources.getD i [] with _ | ⟨h0, tl⟩
      · exact absurd hscr hne
      · have hmem : h0 ∈ (m.sources.getD i []).take (n + 1) := by
          rw [hscr, List.take_succ_cons]
          exact List.mem_cons_self _ _
        have h0e := herr h0 hmem
        simpa using h0e
    have hilt : i < m.source_state.length :=
      lt_length_of_getD_ne_default (by rw [hst]; decide)
    have hpass := pass_error_of_needspoll (List.range m.source_state.length) m i
      (List.mem_range.mpr hilt) hst hhd
    rcases hp : m.poll_pass with ⟨m1, e⟩
    have hp2 : m.poll_pass_from (List.range m.source_state.length) = (m1, e) := hp
    rw [hp2] at hpass
    have he : e = some LogMergeError.DefaultError := hpass.1
    subst he
    have hstep := poll_step_eq_of_pass_err m m1 LogMergeError.DefaultError hp
    have hout : m.outputs (n + 1) = PollOutput.error :: m1.outputs n := by
      conv_lhs => rw [LogMerge.outputs]
      rw [LogMerge.poll, hstep]
      rfl
    rw [hout, List.replicate_succ]
    have hst1 : m1.source_state.getD i SourceState.Finished = SourceState.NeedsPoll :=
      hpass.2.1
    rcases hpass.2.2 with hsame | htail
    · have hlen1 : n ≤ (m1.sources.getD i []).length := by
        rw [hsame]
        omega
      have herr1 : ∀ r ∈ (m1.sources.getD i []).take n, r = PollResult.error := by
        intro r hr
        rw [hsame] at hr
        apply herr
        have hsub : (m.sources.getD i []).take n ⊆ (m.sources.getD i []).take (n + 1) := by
          intro a ha
          have : (m.sources.getD i []).take n =
              ((m.sources.getD i []).take (n + 1)).take n := by
            rw [List.take_take]
            congr 1
            omega
          rw [this] at ha
          exact List.take_subset _ _ ha
        exact hsub hr
      rw [ih m1 hst1 hlen1 herr1]
    · have hlen1 : n ≤ (m1.sources.getD i []).length := by
        rw [htail, List.length_tail]
        omega
      have herr1 : ∀ r ∈ (m1.sources.getD i []).take n, r = PollResult.error := by
        intro r hr
        rw [htail] at hr
        apply herr
        rcases hscr : m.sources.getD i [] with _ | ⟨h0, tl⟩
        · exact absurd hscr hne
        · rw [hscr, List.tail_cons] at hr
          rw [List.take_succ_cons]
          exact List.mem_cons_of_mem h0 hr
      rw [ih m1 hst1 hlen1 herr1]

/-- Witness for `failure_sync_and_repeat`: a single source whose first two
responses are failures; both calls return the failure. -/
theorem failure_sync_and_repeat_witness :
    (LogMerge.new [[PollResult.error, PollResult.error]]).outputs 2 =
      List.replicate 2 PollOutput.error :=
  failure_sync_and_repeat (LogMerge.new [[PollResult.error, PollResult.error]])
    0 2 (by decide) (by decide) (by decide)

/-- C3: round-robin fairness bound.  If a call releases line `l` of some
source while source `j` (a different source) is still unfinished at that
call's release decision (post-pass state), then in the subsequent run, any
later released line of `l`'s source is preceded by a released line of source
`j`.  Hence no source ever has two of its items in the output before every
other then-unfinished source has contributed an item of the same or an
earlier round. -/
theorem fairness_bound (m : LogMerge) (hreach : Reachable m) (l : LogLine)
    (hrel : (m.poll_step).1 = PollStep.item l) (j : Nat) (hj : j ≠ l.source_idx)
    (hunf : ((m.poll_pass).1).source_state.getD j SourceState.Finished ≠
      SourceState.Finished)
    (k p : Nat) (lp : LogLine)
    (hget : (((m.poll_step).2).trace k)[p]? = some lp)
    (hpi : lp.source_idx = l.source_idx) :
    ∃ (r : Nat) (lr : LogLine), r < p ∧
      (((m.poll_step).2).trace k)[r]? = some lr ∧ lr.source_idx = j := by
  have hsep := release_establishes_sep m (reachable_inv m hreach) l hrel j hj hunf
  exact sep_inv_trace l.source_idx j hj k ((m.poll_step).2) hsep p lp hget hpi

/-- Witness for `fairness_bound`: sources A=[a1,a2], B=[b1].  The first call
releases a1 while B is unfinished; a2 appears at position 1 of the subsequent
trace, and indeed B's b1 appears before it (at position 0). -/
theorem fairness_bound_witness :
    ∃ (r : Nat) (lr : LogLine), r < 1 ∧
      ((((LogMerge.new
          [[PollResult.readySome "a1", PollResult.readySome "a2",
              PollResult.readyNone],
            [PollResult.readySome "b1", PollResult.readyNone]]).poll_step).2).trace
          4)[r]? = some lr ∧ lr.source_idx = 1 :=
  fairness_bound
    (LogMerge.new
      [[PollResult.readySome "a1", PollResult.readySome "a2", PollResult.readyNone],
        [PollResult.readySome "b1", PollResult.readyNone]])
    ⟨[[PollResult.readySome "a1", PollResult.readySome "a2", PollResult.readyNone],
        [PollResult.readySome "b1", PollResult.readyNone]], 0, rfl⟩
    { source_idx := 0, line := "a1" } (by decide) 1 (by decide) (by decide)
    4 1 { source_idx := 0, line := "a2" } (by decide) rfl

/-- C4: at every reachable state, the buffered-line count never exceeds the
number of unfinished sources; every buffered line belongs to a source whose
status is `Delivered`; distinct buffered lines belong to distinct sources
(each unfinished source has at most one buffered line); and the polling pass
skips any source whose status is `Delivered`. -/
theorem buffer_round_invariant (m : LogMerge) (h : Reachable m) :
    m.buffer.length ≤ m.sources.length - m.finished ∧
    (∀ l ∈ m.buffer,
      m.source_state.getD l.source_idx SourceState.Finished =
        SourceState.Delivered) ∧
    (m.buffer.map LogLine.source_idx).Nodup ∧
    (∀ s rest, m.source_state.getD s SourceState.Finished = SourceState.Delivered →
      m.poll_pass_from (s :: rest) = m.poll_pass_from rest) := by
  obtain ⟨hA, hB, hC, hD, hE⟩ := reachable_inv m h
  refine ⟨?_, fun l hl => (hD l hl).2, hE, ?_⟩
  · have hpart := countState_partition m.source_state
    have hFle := countState_le_length SourceState.Finished m.source_state
    omega
  · intro s rest hst
    conv_lhs => rw [LogMerge.poll_pass_from]
    rw [hst]

/-- Witness for `buffer_round_invariant` at a freshly constructed scheduler. -/
theorem buffer_round_invariant_witness :
    (LogMerge.new [[PollResult.readySome "w"]]).buffer.length ≤
        (LogMerge.new [[PollResult.readySome "w"]]).sources.length -
          (LogMerge.new [[PollResult.readySome "w"]]).finished ∧
    (∀ l ∈ (LogMerge.new [[PollResult.readySome "w"]]).buffer,
      (LogMerge.new [[PollResult.readySome "w"]]).source_state.getD l.source_idx
        SourceState.Finished = SourceState.Delivered) ∧
    ((LogMerge.new [[PollResult.readySome "w"]]).buffer.map
      LogLine.source_idx).Nodup ∧
    (∀ s rest, (LogMerge.new [[PollResult.readySome "w"]]).source_state.getD s
        SourceState.Finished = SourceState.Delivered →
      (LogMerge.new [[PollResult.readySome "w"]]).poll_pass_from (s :: rest) =
        (LogMerge.new [[PollResult.readySome "w"]]).poll_pass_from rest) :=
  buffer_round_invariant (LogMerge.new [[PollResult.readySome "w"]])
    ⟨[[PollResult.readySome "w"]], 0, rfl⟩

/-- C5: once a call to `poll` returns end-of-sequence, every subsequent call
also returns end-of-sequence — the all-finished terminal state is absorbing
and idempotent. -/
theorem end_of_sequence_absorbing (m : LogMerge) (h : Reachable m)
    (hdone : (m.poll).1 = PollOutput.done) :
    ∀ k, ((((m.poll).2).steps k).poll).1 = PollOutput.done := by
  intro k
  have hInv := reachable_inv m h
  have hstep1 := step_output_done m hdone
  obtain ⟨hpassq, hstfin⟩ := poll_step_done_cases m hstep1
  have hInv2 : MergeInv ((m.poll_step).2) := poll_step_preserves m hInv
  have hd0 : ((m.poll_step).2).sources.length - ((m.poll_step).2).finished = 0 :=
    (state_finished_iff _).mp hstfin
  have hfin := all_finished_of_done _ hInv2 hd0
  have hfix := done_fixpoint _ hfin (finished_ge_of_done _ hd0)
  have hsteps := steps_of_fixpoint _ hfix k
  show ((((m.poll_step).2).steps k).poll).1 = PollOutput.done
  rw [hsteps]
  show stepOutput (((m.poll_step).2).poll_step).1 = PollOutput.done
  rw [hfix]
  rfl

/-- Witness for `end_of_sequence_absorbing` with the zero-source scheduler. -/
theorem end_of_sequence_absorbing_witness :
    (((((LogMerge.new []).poll).2).steps 3).poll).1 = PollOutput.done :=
  end_of_sequence_absorbing (LogMerge.new []) ⟨[], 0, rfl⟩ (by decide) 3

/-- C6: a scheduler constructed with an empty collection of sources returns
end-of-sequence on the very first call and on every call after it — never
not-ready, never an error. -/
theorem empty_sources_end_of_sequence :
    ∀ k, (LogMerge.new []).outputs k = List.replicate k PollOutput.done := by
  intro k
  induction k with
  | zero => rfl
  | succ n ih =>
    have h1 : (LogMerge.new []).outputs (n + 1) =
        PollOutput.done :: (LogMerge.new []).outputs n := rfl
    rw [h1, ih, List.replicate_succ]

/-- C7: the three immediately-ready sources A=[a1,a2], B=[b1], C=[c1,c2,c3]
merge to exactly [a1, b1, c1, a2, c2, c3] and then end-of-sequence: B stops
counting toward round completion after its single contribution, later rounds
complete with only A and C, then only C. -/
theorem varying_length_merge :
    (LogMerge.new
        [[PollResult.readySome "a1", PollResult.readySome "a2",
            PollResult.readyNone],
          [PollResult.readySome "b1", PollResult.readyNone],
          [PollResult.readySome "c1", PollResult.readySome "c2",
            PollResult.readySome "c3", PollResult.readyNone]]).outputs 8 =
      [PollOutput.item "a1", PollOutput.item "b1", PollOutput.item "c1",
        PollOutput.item "a2", PollOutput.item "c2", PollOutput.item "c3",
        PollOutput.done, PollOutput.done] := by decide

/-- C8: if after the polling pass there are strictly fewer buffered lines
than unfinished sources (some unfinished source has not contributed this
round), the call returns not-ready, the resulting state is exactly the
post-pass state, no line is removed from the buffer (the pass only appends),
and every source that was `Delivered` before the call is still `Delivered`
after it — buffered lines are not emitted early. -/
theorem awaiting_input_frame (m : LogMerge)
    (hok : (m.poll_pass).2 = none)
    (hwait : ((m.poll_pass).1).buffer.length <
      ((m.poll_pass).1).sources.length - ((m.poll_pass).1).finished) :
    (m.poll).1 = PollOutput.notReady ∧
    (m.poll).2 = (m.poll_pass).1 ∧
    (∃ t, ((m.poll).2).buffer = m.buffer ++ t) ∧
    (∀ i, m.source_state.getD i SourceState.Finished = SourceState.Delivered →
      ((m.poll).2).source_state.getD i SourceState.Finished =
        SourceState.Delivered) := by
  rcases hp : m.poll_pass with ⟨m1, e⟩
  have he : e = none := by rw [hp] at hok; exact hok
  subst he
  have hw : m1.buffer.length < m1.sources.length - m1.finished := by
    rw [hp] at hwait
    exact hwait
  have hs : m1.state = SourceState.NeedsPoll :=
    (state_needspoll_iff m1).mpr ⟨by omega, by omega⟩
  have hstep := poll_step_eq_notready m m1 hp hs
  refine ⟨?_, ?_, ?_, ?_⟩
  · show stepOutput (m.poll_step).1 = PollOutput.notReady
    rw [hstep]
    rfl
  · show (m.poll_step).2 = m1
    rw [hstep]
  · obtain ⟨t, ht, _, _⟩ := poll_pass_buffer m
    refine ⟨t, ?_⟩
    show ((m.poll_step).2).buffer = m.buffer ++ t
    rw [hstep]
    show m1.buffer = m.buffer ++ t
    rw [hp] at ht
    exact ht
  · intro i hi
    have hdel := poll_pass_from_delivered (List.range m.source_state.length) m i hi
    show ((m.poll_step).2).source_state.getD i SourceState.Finished =
      SourceState.Delivered
    rw [hstep]
    show m1.source_state.getD i SourceState.Finished = SourceState.Delivered
    have hp2 : m.poll_pass_from (List.range m.source_state.length) = (m1, none) := hp
    rw [hp2] at hdel
    exact hdel

/-- Witness for `awaiting_input_frame`: one not-ready source; the first call
returns not-ready. -/
theorem awaiting_input_frame_witness :
    ((LogMerge.new [[PollResult.notReady]]).poll).1 = PollOutput.notReady ∧
    ((LogMerge.new [[PollResult.notReady]]).poll).2 =
      ((LogMerge.new [[PollResult.notReady]]).poll_pass).1 ∧
    (∃ t, (((LogMerge.new [[PollResult.notReady]]).poll).2).buffer =
      (LogMerge.new [[PollResult.notReady]]).buffer ++ t) ∧
    (∀ i, (LogMerge.new [[PollResult.notReady]]).source_state.getD i
        SourceState.Finished = SourceState.Delivered →
      (((LogMerge.new [[PollResult.notReady]]).poll).2).source_state.getD i
        SourceState.Finished = SourceState.Delivered) :=
  awaiting_input_frame (LogMerge.new [[PollResult.notReady]]) (by decide) (by decide)

/-- C9: whenever the derived round state is `Delivered` (round complete), the
buffer is non-empty, so the `pop_front().unwrap()` of `next_line` and the
status flip of the released line's source never fail: `poll` never reaches
the `panicked` outcome, at any state whatsoever (hence at every reachable
one). -/
theorem release_never_panics (m : LogMerge) :
    (m.poll).1 ≠ PollOutput.panicked := by
  intro h
  have h2 : stepOutput (m.poll_step).1 = PollOutput.panicked := h
  rcases ho : (m.poll_step).1 with l | _ | _ | _ | _ <;> rw [ho] at h2 <;>
    simp [stepOutput] at h2
  exact poll_step_no_panic m ho

/-- Witness for `release_never_panics` at a concrete scheduler. -/
theorem release_never_panics_witness :
    ((LogMerge.new [[PollResult.readySome "y"]]).poll).1 ≠ PollOutput.panicked :=
  release_never_panics (LogMerge.new [[PollResult.readySome "y"]])

/-- C10: when a call returns a failure, the mutations of the polling pass
persist: the returned state is exactly the post-pass state (not the pre-call
state), the buffer keeps every previously buffered line (lines buffered by
lower-indexed sources in this pass included), every buffered line's source is
marked `Delivered`, the finished counter is not rolled back, and the failing
source itself keeps status `NeedsPoll` with its poll consumed — a subsequent
call would poll it again. -/
theorem failure_keeps_pass_mutations (m : LogMerge) (hreach : Reachable m)
    (h : (m.poll).1 = PollOutput.error) :
    (m.poll).2 = (m.poll_pass).1 ∧
    (∃ t, ((m.poll).2).buffer = m.buffer ++ t) ∧
    (∀ l ∈ ((m.poll).2).buffer,
      ((m.poll).2).source_state.getD l.source_idx SourceState.Finished =
        SourceState.Delivered) ∧
    m.finished ≤ ((m.poll).2).finished ∧
    (∃ s, m.source_state.getD s SourceState.Finished = SourceState.NeedsPoll ∧
      ((m.poll).2).source_state.getD s SourceState.Finished =
        SourceState.NeedsPoll ∧
      (m.sources.getD s []).headD PollResult.notReady = PollResult.error ∧
      ((m.poll).2).sources.getD s [] = (m.sources.getD s []).tail) := by
  have hstep1 := step_output_error m h
  have hpq := poll_step_error_cases m hstep1
  have hc1 : (m.poll).2 = (m.poll_pass).1 := by
    show (m.poll_step).2 = (m.poll_pass).1
    rw [hpq]
  refine ⟨hc1, ?_, ?_, ?_, ?_⟩
  · obtain ⟨t, ht, _, _⟩ := poll_pass_buffer m
    exact ⟨t, by rw [hc1]; exact ht⟩
  · intro l hl
    have hInv1 : MergeInv ((m.poll_pass).1) :=
      poll_pass_preserves m (reachable_inv m hreach)
    rw [hc1] at hl ⊢
    exact (hInv1.2.2.2.1 l hl).2
  · have hmono := poll_pass_from_finished_le (List.range m.source_state.length) m
    rw [hc1]
    exact hmono
  · have hp2 : m.poll_pass_from (List.range m.source_state.length) =
        ((m.poll_step).2, some LogMergeError.DefaultError) := hpq
    obtain ⟨s, hmem, h1, h2, h3, h4⟩ := pass_error_source _ m ((m.poll_step).2)
      (List.nodup_range _) hp2
    exact ⟨s, h1, h2, h3, h4⟩

/-- Witness for `failure_keeps_pass_mutations`: source 0 buffers a line, then
source 1 fails in the same pass. -/
theorem failure_keeps_pass_mutations_witness :
    ((LogMerge.new [[PollResult.readySome "a"], [PollResult.error]]).poll).2 =
      ((LogMerge.new [[PollResult.readySome "a"], [PollResult.error]]).poll_pass).1 ∧
    (∃ t, (((LogMerge.new [[PollResult.readySome "a"],
        [PollResult.error]]).poll).2).buffer =
      (LogMerge.new [[PollResult.readySome "a"], [PollResult.error]]).buffer ++ t) ∧
    (∀ l ∈ (((LogMerge.new [[PollResult.readySome "a"],
        [PollResult.error]]).poll).2).buffer,
      (((LogMerge.new [[PollResult.readySome "a"],
          [PollResult.error]]).poll).2).source_state.getD l.source_idx
        SourceState.Finished = SourceState.Delivered) ∧
    (LogMerge.new [[PollResult.readySome "a"], [PollResult.error]]).finished ≤
      (((LogMerge.new [[PollResult.readySome "a"],
        [PollResult.error]]).poll).2).finished ∧
    (∃ s, (LogMerge.new [[PollResult.readySome "a"],
          [PollResult.error]]).source_state.getD s SourceState.Finished =
        SourceState.NeedsPoll ∧
      (((LogMerge.new [[PollResult.readySome "a"],
          [PollResult.error]]).poll).2).source_state.getD s SourceState.Finished =
        SourceState.NeedsPoll ∧
      ((LogMerge.new [[PollResult.readySome "a"],
          [PollResult.error]]).sources.getD s []).headD PollResult.notReady =
        PollResult.error ∧
      (((LogMerge.new [[PollResult.readySome "a"],
          [PollResult.error]]).poll).2).sources.getD s [] =
        ((LogMerge.new [[PollResult.readySome "a"],
          [PollResult.error]]).sources.getD s []).tail) :=
  failure_keeps_pass_mutations
    (LogMerge.new [[PollResult.readySome "a"], [PollResult.error]])
    ⟨[[PollResult.readySome "a"], [PollResult.error]], 0, rfl⟩ (by decide)
